import Mathlib

set_option maxHeartbeats 1000000

/-! Verification of the servalcat resolution-shell binning engine
(`servalcat/utils/hkl.py`, `setup_relion_binning`) and of the per-shell
weighting statistics and map-coefficient synthesis pipeline
(`servalcat/spa/fofc.py`).

Conventions of the shallow embedding:
* exact float values on the binning side are modelled by `ℚ`, shell ids and
  member counts by `ℕ`;
* the statistics side works over `ℝ` and `ℂ`;
* an IEEE NaN arising from a zero denominator is modelled by `Option`
  (`none` = NaN), see `Fofc.divOpt` and `Fofc.pySqrt`;
* python dicts are insertion-ordered association lists (`List (ℕ × ℕ)`);
* the unbounded `while True` chain-resolution loop is given explicit fuel,
  `none` meaning the fuel was exhausted. -/

namespace Servalcat

namespace Hkl

/-- numpy `astype(int)` on a float value: truncation toward zero. -/
def pyTrunc (q : ℚ) : ℤ := if 0 ≤ q then ⌊q⌋ else ⌈q⌉

/-- raw shell id of one record: `(max_edge/d + 0.5).astype(int)`
(hkl.py line 307), as a natural number. -/
def binOfN (L d : ℚ) : ℕ := (pyTrunc (L / d + 1/2)).toNat

/-- largest raw shell id occurring in the record list. -/
def maxBin (bins : List ℕ) : ℕ := bins.foldr max 0

/-- python `df.groupby("bin", sort=True)` with the DC bin (`i_bin == 0`) dropped:
the ascending list of (shell id, member count) pairs (hkl.py lines 312-315). -/
def groupBins (bins : List ℕ) : List (ℕ × ℕ) :=
  ((List.range (maxBin bins + 1)).filter
    (fun b => decide (b ≠ 0) && decide (bins.count b ≠ 0))).map
    (fun b => (b, bins.count b))

/-- one in-place merge pass over the (shell id, member count) list.  While the
condition on (current count, next original count) holds and the current shell
is not the last one, the current shell is merged into the next one (the member
counts add up, the merged entry keeps its stale count, exactly as the python
lists do) and a merge-table entry (current id, next id) is recorded; the pass
stops at the first shell failing the condition (hkl.py lines 317-331). -/
def mergePassGo (cond : ℕ → ℕ → Bool) (cur : ℕ × ℕ) :
    List (ℕ × ℕ) → List (ℕ × ℕ) × List (ℕ × ℕ)
  | [] => ([cur], [])
  | (k2, c2) :: rest =>
    if cond cur.2 c2 then
      (cur :: (mergePassGo cond (k2, c2 + cur.2) rest).1,
       (cur.1, k2) :: (mergePassGo cond (k2, c2 + cur.2) rest).2)
    else (cur :: (k2, c2) :: rest, [])

/-- a whole merge pass: the head element is the current shell. -/
def mergePass (cond : ℕ → ℕ → Bool) : List (ℕ × ℕ) → List (ℕ × ℕ) × List (ℕ × ℕ)
  | [] => ([], [])
  | x :: rest => mergePassGo cond x rest

/-- forward merge pass (hkl.py lines 317-323): merge while the current shell
has fewer than 10 members. -/
def fwdMerge : List (ℕ × ℕ) → List (ℕ × ℕ) × List (ℕ × ℕ) :=
  mergePass (fun c _ => decide (c < 10))

/-- backward merge pass (hkl.py lines 325-331) on the reversed list: merge
while `len(cur)/len(prev) < 0.5`, i.e. `2 * cur < prev` (counts are exact). -/
def bwdMergeAux : List (ℕ × ℕ) → List (ℕ × ℕ) × List (ℕ × ℕ) :=
  mergePass (fun c c2 => decide (2 * c < c2))

/-- backward merge pass in original orientation. -/
def bwdMerge (l : List (ℕ × ℕ)) : List (ℕ × ℕ) × List (ℕ × ℕ) :=
  ((bwdMergeAux l.reverse).1.reverse, (bwdMergeAux l.reverse).2)

/-- python dict assignment `d[k] = v` on an insertion-ordered association
list: overwrite in place if the key exists, else append. -/
def dictInsert (t : List (ℕ × ℕ)) (kv : ℕ × ℕ) : List (ℕ × ℕ) :=
  if (t.lookup kv.1).isSome then t.map (fun p => if p.1 = kv.1 then kv else p)
  else t ++ [kv]

/-- a python dict built from a list of assignments in order. -/
def mkDict (l : List (ℕ × ℕ)) : List (ℕ × ℕ) := l.foldl dictInsert []

/-- the `modify_table` dict after both passes: forward entries inserted during
the forward pass (ascending), then backward entries (descending)
(hkl.py lines 320 and 328). -/
def mergeTable (bc : List (ℕ × ℕ)) : List (ℕ × ℕ) :=
  mkDict ((fwdMerge bc).2 ++ (bwdMerge (fwdMerge bc).1).2)

/-- one step of the chain-resolution sweep: the python body lines 335-337 for
the single key at position `i`; updates are visible to later steps. -/
def sweepStep (st : List (ℕ × ℕ) × Bool) (i : ℕ) : List (ℕ × ℕ) × Bool :=
  match st.1.get? i with
  | none => st
  | some e =>
    match st.1.lookup e.2 with
    | none => st
    | some w => (st.1.set i (e.1, w), false)

/-- one full sweep of the `while True` body over all keys in dict order
(hkl.py lines 334-338); the boolean is the `flag` variable. -/
def resolveSweep (t : List (ℕ × ℕ)) : List (ℕ × ℕ) × Bool :=
  (List.range t.length).foldl sweepStep (t, true)

/-- the `while True` chain-resolution loop (hkl.py lines 333-339), with fuel;
`none` models non-termination within the given fuel. -/
def resolveLoop : ℕ → List (ℕ × ℕ) → Option (List (ℕ × ℕ))
  | 0, _ => none
  | fuel+1, t =>
    match resolveSweep t with
    | (t2, true) => some t2
    | (t2, false) => resolveLoop fuel t2

/-- rewriting one record's shell id through the merge table, one table entry
after the other in dict order (hkl.py lines 341-343). -/
def applySeq (t : List (ℕ × ℕ)) (b : ℕ) : ℕ :=
  t.foldl (fun cur e => if cur = e.1 then e.2 else cur) b

/-- no target of a merge-table entry is itself a merge-table key. -/
def Resolved (t : List (ℕ × ℕ)) : Prop :=
  ∀ p ∈ t, ∀ q ∈ t, p.2 ≠ q.1

/-- rank certificate for a merge table: every target that is itself a key
strictly decreases `rk`.  Such a certificate is exactly acyclicity of the
merge table viewed as a graph. -/
def RankedWith (rk : ℕ → ℕ) (t : List (ℕ × ℕ)) : Prop :=
  ∀ p ∈ t, p.2 ∈ t.map Prod.fst → rk p.2 < rk p.1

/-- number of leading indices of `0, ..., n-1` satisfying `p`. -/
def countWhile (p : ℕ → Bool) : ℕ → ℕ
  | 0 => 0
  | n+1 => if p 0 then countWhile (fun i => p (i+1)) n + 1 else 0

/-- cumulative member count of shells `0..i`: the current count of shell `i`
once it has absorbed all merges from below. -/
def prefCnt (bc : List (ℕ × ℕ)) (i : ℕ) : ℕ := ((bc.map Prod.snd).take (i+1)).sum

/-- original member count of shell `i`. -/
def cntAt (bc : List (ℕ × ℕ)) (i : ℕ) : ℕ := (bc.map Prod.snd).getD i 0

/-- number of shells merged by a pass with condition `cond` before it stops. -/
def mergeStop (cond : ℕ → ℕ → Bool) (bc : List (ℕ × ℕ)) : ℕ :=
  countWhile (fun i => decide (i + 1 < bc.length) && cond (prefCnt bc i) (cntAt bc (i+1))) bc.length

/-- the list of (shell id, next shell id) pairs. -/
def consecPairs (l : List ℕ) : List (ℕ × ℕ) := l.zip l.tail

/-- the forward merge pass as worded in the spec: in ascending order, each
shell whose accumulated member count is below 10 and which is not the last
shell is merged into the next-higher-id shell; the pass stops at the first
shell with at least 10 members. -/
def specForwardTable (bc : List (ℕ × ℕ)) : List (ℕ × ℕ) :=
  (consecPairs (bc.map Prod.fst)).take
    (countWhile (fun i => decide (i + 1 < bc.length) && decide (prefCnt bc i < 10)) bc.length)

/-- the backward merge pass as worded in the spec: in descending order, each
shell whose member count is less than half the immediately lower shell's count
(and which is not the lowest shell) is merged into that lower shell; the pass
stops at the first shell not meeting the ratio condition. -/
def specBackwardTable (bc : List (ℕ × ℕ)) : List (ℕ × ℕ) :=
  (consecPairs (bc.reverse.map Prod.fst)).take
    (countWhile (fun i => decide (i + 1 < bc.reverse.length) && decide (2 * prefCnt bc.reverse i < cntAt bc.reverse (i+1))) bc.reverse.length)

/-- the potential of a merge table relative to a fixed key list: unresolved
entries contribute their target's rank plus one. -/
def phi (rk : ℕ → ℕ) (ks : List ℕ) (t : List (ℕ × ℕ)) : ℕ :=
  (t.map (fun p => if p.2 ∈ ks then rk p.2 + 1 else 0)).sum

end Hkl

noncomputable section

namespace Fofc

open Complex

/-- numpy mean of a complex array. -/
def cmean (xs : List ℂ) : ℂ := xs.sum / (xs.length : ℂ)

/-- numpy `var` of a complex array: mean of `|x - mean|^2`, a real number. -/
def cvar (xs : List ℂ) : ℝ :=
  ((xs.map (fun x => Complex.abs (x - cmean xs) ^ 2)).sum) / (xs.length : ℝ)

/-- numpy `std` of a complex array. -/
def cstd (xs : List ℂ) : ℝ := Real.sqrt (cvar xs)

/-- embeds `numpy.real(numpy.corrcoef(xs, ys)[1,0])`, modelled as the real part of
the complex Pearson correlation coefficient of the two arrays. -/
def corr10 (xs ys : List ℂ) : ℝ :=
  (((ys.zip xs).map
      (fun p => (p.1 - cmean ys) * (starRingEnd ℂ) (p.2 - cmean xs))).sum).re /
    Real.sqrt
      (((xs.map (fun x => Complex.abs (x - cmean xs) ^ 2)).sum) *
       ((ys.map (fun y => Complex.abs (y - cmean ys) ^ 2)).sum))

/-- embeds `calc_noise_var` for one shell (fofc.py lines 86-106): returns
`(var_noise, FSCfull)`.  A shell with fewer than 3 members is skipped, leaving
the two statistics at their defaults of 0 (lines 80-81, 97-99). -/
def calc_noise_var_bin (sel1 sel2 : List ℂ) : ℝ × ℝ :=
  if sel1.length < 3 then (0, 0)
  else
    (cvar ((sel1.zip sel2).map (fun p => p.1 - p.2)) / 4,
     2 * corr10 sel1 sel2 / (1 + corr10 sel1 sel2))

/-- the shell scale factor `D` (fofc.py line 123). -/
def calc_D_bin (Fo Fc : List ℂ) : ℝ :=
  (((Fo.zip Fc).map (fun p => (p.1 * (starRingEnd ℂ) p.2).re)).sum) /
    ((Fc.map (fun z => Complex.abs z ^ 2)).sum)

/-- the shell signal variance `S` (fofc.py lines 124-129): only computed when
half maps are present, clamped at zero; otherwise left at its default 0. -/
def calc_S_bin (Fo Fc : List ℂ) (D varn : ℝ) (hasHalf : Bool) : ℝ :=
  if hasHalf then
    max 0 ((((Fo.zip Fc).map (fun p => Complex.abs (p.1 - (D : ℂ) * p.2) ^ 2)).sum) /
      ((Fo.zip Fc).length : ℝ) - varn)
  else 0

/-- embeds `calc_D_and_S` for one shell: the pair `(D, S)`. -/
def calc_D_and_S_bin (Fo Fc : List ℂ) (varn : ℝ) (hasHalf : Bool) : ℝ × ℝ :=
  (calc_D_bin Fo Fc, calc_S_bin Fo Fc (calc_D_bin Fo Fc) varn hasHalf)

/-- float division of a complex numerator by a real denominator; a zero
denominator (only reachable here with a zero numerator, giving IEEE `0/0`)
produces NaN, modelled as `none`. -/
def divOpt (x : ℂ) (r : ℝ) : Option ℂ := if r = 0 then none else some (x / (r : ℂ))

/-- embeds `numpy.sqrt` on a real value: NaN (`none`) on negative input. -/
def pySqrt (x : ℝ) : Option ℝ := if x < 0 then none else some (Real.sqrt x)

/-- the per-record output coefficients of `calc_maps`; fields are the columns
of the same name, `none` models an IEEE NaN, and a field whose label is not in
`calc_maps_labs` is unused (kept at `some 0`, the array initial value). -/
structure MapOut where
  DELFWT : Option ℂ
  FWT : Option ℂ
  DELFWT_noscale : Option ℂ
  FWT_noscale : Option ℂ
  DELFWT_b0 : Option ℂ
  FWT_b0 : Option ℂ

/-- the output labels created by `calc_maps` (fofc.py lines 142-146). -/
def calc_maps_labs (hasHalf : Bool) (B : Option ℝ) : List String :=
  if hasHalf then
    ["DELFWT", "FWT", "DELFWT_noscale", "FWT_noscale"] ++
      (if B.isSome then ["DELFWT_b0", "FWT_b0"] else [])
  else ["DELFWT"]

/-- embeds `fsc_l` of the temperature-factor branch (fofc.py line 193), computed for
the log output. -/
def fsc_l_of (b d FSCfull : ℝ) : ℝ :=
  Real.exp (-b * (1 / d ^ 2) / 2) * FSCfull /
    (1 + (Real.exp (-b * (1 / d ^ 2) / 2) - 1) * FSCfull)

/-- embeds `calc_maps` for one record of one shell (fofc.py lines 158-207).
`D`, `S`, `FSCfull`, `varn` are the shell statistics, `sig_fo` is
`numpy.std(Fo)` over the shell, `d` is the record's d-spacing. -/
def calc_maps_record (hasHalf : Bool) (B : Option ℝ) (Fo Fc : ℂ)
    (D S FSCfull varn sig_fo d : ℝ) : MapOut :=
  if hasHalf = false then
    { DELFWT := some (Fo - (D : ℂ) * Fc), FWT := some 0, DELFWT_noscale := some 0,
      FWT_noscale := some 0, DELFWT_b0 := some 0, FWT_b0 := some 0 }
  else
    let delfwt := divOpt ((Fo - (D : ℂ) * Fc) * (S : ℂ)) (S + varn)
    let fwt := divOpt (Fo * (S : ℂ) + (varn : ℂ) * (D : ℂ) * Fc) (S + varn)
    match (pySqrt FSCfull).map (fun s => sig_fo * s) with
    | none =>
      { DELFWT := some 0, FWT := some 0, DELFWT_noscale := delfwt,
        FWT_noscale := fwt, DELFWT_b0 := some 0, FWT_b0 := some 0 }
    | some n =>
      if n < 1/10^10 then
        { DELFWT := some 0, FWT := some 0, DELFWT_noscale := delfwt,
          FWT_noscale := fwt, DELFWT_b0 := some 0, FWT_b0 := some 0 }
      else
        match B with
        | none =>
          { DELFWT := delfwt.map (fun x => x / (n : ℂ)),
            FWT := fwt.map (fun x => x / (n : ℂ)),
            DELFWT_noscale := delfwt, FWT_noscale := fwt,
            DELFWT_b0 := some 0, FWT_b0 := some 0 }
        | some b =>
          let k : ℝ := Real.exp (-b * (1 / d ^ 2) / 4)
          let k2 : ℝ := Real.exp (-b * (1 / d ^ 2) / 2)
          let S_l : ℝ := S * k2
          { DELFWT := (divOpt ((Fo - (D : ℂ) * Fc) * (S : ℂ) * (k : ℂ)) (S_l + varn)).map
              (fun x => x / (n : ℂ)),
            FWT := (divOpt (Fo * (S_l : ℂ) + (varn : ℂ) * (D : ℂ) * Fc) (S_l + varn)).map
              (fun x => x / (n : ℂ) / (k : ℂ)),
            DELFWT_noscale := delfwt, FWT_noscale := fwt,
            DELFWT_b0 := delfwt.map (fun x => x / (n : ℂ)),
            FWT_b0 := fwt.map (fun x => x / (n : ℂ)) }

/-- embeds `calc_maps` over one whole shell: `sig_fo` is the standard deviation of
the shell's observed amplitudes (fofc.py line 178). -/
def calc_maps_bin (hasHalf : Bool) (B : Option ℝ) (Fos Fcs : List ℂ)
    (ds : List ℝ) (D S FSCfull varn : ℝ) : List MapOut :=
  ((Fos.zip Fcs).zip ds).map
    (fun p => calc_maps_record hasHalf B p.1.1 p.1.2 D S FSCfull varn (cstd Fos) p.2)

/-- embeds `mask_and_fft_maps` (fofc.py lines 48-67) at record level: with two half
maps the observed amplitude column `FP` is the arithmetic mean of the two
half-map values; with one map it is that map's value; anything else fails the
assertion. -/
def mask_and_fft_FP (maps : List (List ℂ)) : Option (List ℂ) :=
  if maps.length = 2 then
    some (((maps.getD 0 []).zip (maps.getD 1 [])).map (fun p => (p.1 + p.2) / 2))
  else if maps.length = 1 then some (maps.getD 0 [])
  else none

/-- the half-map pipeline of `main` restricted to one shell (fofc.py lines
294-318): `FP` from `mask_and_fft_maps`, then `calc_noise_var`, then
`calc_D_and_S`, then `calc_maps`, every stage reading the same `FP`. -/
def fofc_pipeline_bin (half1 half2 Fcs : List ℂ) (ds : List ℝ) (B : Option ℝ) :
    List MapOut :=
  let FP := (mask_and_fft_FP [half1, half2]).getD []
  calc_maps_bin true B FP Fcs ds
    (calc_D_and_S_bin FP Fcs (calc_noise_var_bin half1 half2).1 true).1
    (calc_D_and_S_bin FP Fcs (calc_noise_var_bin half1 half2).1 true).2
    (calc_noise_var_bin half1 half2).2
    (calc_noise_var_bin half1 half2).1

end Fofc

end


namespace Hkl

theorem mergePass_nil (cond : ℕ → ℕ → Bool) : mergePass cond [] = ([], []) := rfl

theorem mergePass_single (cond : ℕ → ℕ → Bool) (x : ℕ × ℕ) :
    mergePass cond [x] = ([x], []) := rfl

theorem mergePass_cons_cons (cond : ℕ → ℕ → Bool) (k c k2 c2 : ℕ) (rest : List (ℕ × ℕ)) :
    mergePass cond ((k, c) :: (k2, c2) :: rest) =
      if cond c c2 then
        ((k, c) :: (mergePass cond ((k2, c2 + c) :: rest)).1,
         (k, k2) :: (mergePass cond ((k2, c2 + c) :: rest)).2)
      else ((k, c) :: (k2, c2) :: rest, []) := by
  show mergePassGo cond (k, c) ((k2, c2) :: rest) = _
  rw [mergePassGo]
  rfl

theorem countWhile_le (p : ℕ → Bool) (n : ℕ) : countWhile p n ≤ n := by
  induction n generalizing p with
  | zero => simp [countWhile]
  | succ n ih =>
    rw [countWhile]
    by_cases h : p 0 = true
    · rw [if_pos h]
      exact Nat.succ_le_succ (ih _)
    · rw [if_neg h]
      omega

theorem countWhile_true {p : ℕ → Bool} {n i : ℕ} (h : i < countWhile p n) : p i = true := by
  induction n generalizing p i with
  | zero => simp [countWhile] at h
  | succ n ih =>
    rw [countWhile] at h
    by_cases h0 : p 0 = true
    · rw [if_pos h0] at h
      cases i with
      | zero => exact h0
      | succ i => exact ih (p := fun j => p (j+1)) (i := i) (by omega)
    · rw [if_neg h0] at h
      omega

theorem countWhile_le_of_false {p : ℕ → Bool} {n k : ℕ} (h : p k = false) :
    countWhile p n ≤ k := by
  by_contra hc
  have := countWhile_true (p := p) (n := n) (i := k) (by omega)
  simp [this] at h

theorem prefCnt_cons_zero (k c : ℕ) (l : List (ℕ × ℕ)) : prefCnt ((k, c) :: l) 0 = c := by
  simp [prefCnt]

theorem prefCnt_shift (k c k2 c2 : ℕ) (rest : List (ℕ × ℕ)) (i : ℕ) :
    prefCnt ((k, c) :: (k2, c2) :: rest) (i+1) = prefCnt ((k2, c2 + c) :: rest) i := by
  simp only [prefCnt, List.map_cons, List.take_succ_cons, List.sum_cons]
  omega

theorem cntAt_cons_succ (k c : ℕ) (l : List (ℕ × ℕ)) (i : ℕ) :
    cntAt ((k, c) :: l) (i+1) = cntAt l i := by
  simp [cntAt]

theorem cntAt_cons_zero (k c : ℕ) (l : List (ℕ × ℕ)) : cntAt ((k, c) :: l) 0 = c := by
  simp [cntAt]

theorem mergeStop_cons_cons (cond : ℕ → ℕ → Bool) (k c k2 c2 : ℕ) (rest : List (ℕ × ℕ)) :
    mergeStop cond ((k, c) :: (k2, c2) :: rest) =
      if cond c c2 then mergeStop cond ((k2, c2 + c) :: rest) + 1 else 0 := by
  have hlen : ((k, c) :: (k2, c2) :: rest).length = rest.length + 2 := by simp
  rw [mergeStop, hlen, countWhile]
  have h0 : (decide (0 + 1 < rest.length + 2) &&
      cond (prefCnt ((k, c) :: (k2, c2) :: rest) 0) (cntAt ((k, c) :: (k2, c2) :: rest) (0+1)))
      = cond c c2 := by
    have h1 : (0 + 1 < rest.length + 2) := by omega
    simp [h1, prefCnt_cons_zero, cntAt_cons_succ, cntAt_cons_zero]
  rw [h0]
  by_cases hc : cond c c2 = true
  · rw [if_pos hc, if_pos hc]
    congr 1
    rw [mergeStop]
    have hlen2 : ((k2, c2 + c) :: rest).length = rest.length + 1 := by simp
    rw [hlen2]
    congr 1
    funext i
    congr 1
    · rw [decide_eq_decide]
      omega
    · rw [prefCnt_shift]
      simp [cntAt_cons_succ]
  · rw [if_neg hc, if_neg hc]

theorem mergeStop_nil (cond : ℕ → ℕ → Bool) : mergeStop cond [] = 0 := by
  simp [mergeStop, countWhile]

theorem mergeStop_single (cond : ℕ → ℕ → Bool) (x : ℕ × ℕ) : mergeStop cond [x] = 0 := by
  rw [mergeStop]
  simp only [List.length_cons, List.length_nil]
  rw [countWhile]
  simp

theorem mergePass_fst_map_fst (cond : ℕ → ℕ → Bool) :
    ∀ (bc : List (ℕ × ℕ)), ((mergePass cond bc).1).map Prod.fst = bc.map Prod.fst
  | [] => by simp [mergePass_nil]
  | [x] => by simp [mergePass_single]
  | (k, c) :: (k2, c2) :: rest => by
    rw [mergePass_cons_cons]
    by_cases hc : cond c c2 = true
    · rw [if_pos hc]
      simp only [List.map_cons]
      have := mergePass_fst_map_fst cond ((k2, c2 + c) :: rest)
      simp only [List.map_cons] at this
      rw [this]
    · rw [if_neg hc]

theorem mergePass_length (cond : ℕ → ℕ → Bool) (bc : List (ℕ × ℕ)) :
    (mergePass cond bc).1.length = bc.length := by
  have := congrArg List.length (mergePass_fst_map_fst cond bc)
  simpa using this

theorem mergePass_snd (cond : ℕ → ℕ → Bool) :
    ∀ (bc : List (ℕ × ℕ)),
      (mergePass cond bc).2 = (consecPairs (bc.map Prod.fst)).take (mergeStop cond bc)
  | [] => by simp [mergePass_nil, consecPairs, mergeStop_nil]
  | [x] => by simp [mergePass_single, consecPairs, mergeStop_single]
  | (k, c) :: (k2, c2) :: rest => by
    rw [mergePass_cons_cons, mergeStop_cons_cons]
    by_cases hc : cond c c2 = true
    · rw [if_pos hc, if_pos hc]
      simp only
      rw [mergePass_snd cond ((k2, c2 + c) :: rest)]
      have hids : ((k2, c2 + c) :: rest).map Prod.fst = k2 :: rest.map Prod.fst := by simp
      have hids2 : (((k, c) :: (k2, c2) :: rest).map Prod.fst) = k :: k2 :: rest.map Prod.fst := by simp
      rw [hids, hids2]
      have hcp : consecPairs (k :: k2 :: rest.map Prod.fst)
          = (k, k2) :: consecPairs (k2 :: rest.map Prod.fst) := by
        simp [consecPairs]
      rw [hcp, List.take_succ_cons]
    · rw [if_neg hc, if_neg hc]
      simp

theorem mergePass_counts (cond : ℕ → ℕ → Bool) :
    ∀ (bc : List (ℕ × ℕ)) (i : ℕ), i < bc.length →
      cntAt (mergePass cond bc).1 i =
        if i ≤ mergeStop cond bc then prefCnt bc i else cntAt bc i
  | [], i, hi => by simp at hi
  | [x], i, hi => by
    have : i = 0 := by simpa using hi
    subst this
    obtain ⟨k, c⟩ := x
    simp [mergePass_single, mergeStop_single, prefCnt_cons_zero, cntAt_cons_zero]
  | (k, c) :: (k2, c2) :: rest, i, hi => by
    rw [mergePass_cons_cons, mergeStop_cons_cons]
    by_cases hc : cond c c2 = true
    · rw [if_pos hc, if_pos hc]
      simp only
      cases i with
      | zero =>
        rw [cntAt_cons_zero, prefCnt_cons_zero, if_pos (by omega)]
      | succ i =>
        rw [cntAt_cons_succ]
        have hi' : i < ((k2, c2 + c) :: rest).length := by
          simp at hi ⊢
          omega
        rw [mergePass_counts cond ((k2, c2 + c) :: rest) i hi']
        rw [prefCnt_shift]
        by_cases hle : i ≤ mergeStop cond ((k2, c2 + c) :: rest)
        · rw [if_pos hle, if_pos (by omega)]
        · rw [if_neg hle, if_neg (by omega)]
          cases i with
          | zero => omega
          | succ i' => simp [cntAt_cons_succ]
    · rw [if_neg hc, if_neg hc]
      simp only
      by_cases h0 : i = 0
      · subst h0
        rw [if_pos (by omega), prefCnt_cons_zero, cntAt_cons_zero]
      · rw [if_neg (by omega)]

theorem prefCnt_mono (bc : List (ℕ × ℕ)) (i : ℕ) : prefCnt bc i ≤ prefCnt bc (i+1) := by
  simp only [prefCnt]
  conv_rhs => rw [List.take_succ]
  rw [List.sum_append]
  exact Nat.le_add_right _ _

theorem groupBins_map_fst (bins : List ℕ) :
    (groupBins bins).map Prod.fst =
      (List.range (maxBin bins + 1)).filter
        (fun b => decide (b ≠ 0) && decide (bins.count b ≠ 0)) := by
  simp [groupBins, List.map_map, Function.comp_def]

theorem groupBins_sorted (bins : List ℕ) :
    ((groupBins bins).map Prod.fst).Pairwise (· < ·) := by
  rw [groupBins_map_fst]
  exact (List.pairwise_lt_range _).sublist (List.filter_sublist _)

theorem groupBins_mem {bins : List ℕ} {p : ℕ × ℕ} (hp : p ∈ groupBins bins) :
    p.1 ≠ 0 ∧ p.2 = bins.count p.1 := by
  simp only [groupBins, List.mem_map, List.mem_filter] at hp
  obtain ⟨b, ⟨_, hcond⟩, rfl⟩ := hp
  simp only [Bool.and_eq_true, decide_eq_true_eq] at hcond
  exact ⟨hcond.1, rfl⟩

theorem le_maxBin {bins : List ℕ} {b : ℕ} (hb : b ∈ bins) : b ≤ maxBin bins := by
  induction bins with
  | nil => simp at hb
  | cons a l ih =>
    simp only [List.mem_cons] at hb
    rw [maxBin, List.foldr_cons]
    rcases hb with rfl | hb
    · exact Nat.le_max_left _ _
    · exact le_trans (ih hb) (Nat.le_max_right _ _)

theorem groupBins_complete {bins : List ℕ} {b : ℕ} (hb0 : b ≠ 0) (hb : b ∈ bins) :
    b ∈ (groupBins bins).map Prod.fst := by
  rw [groupBins_map_fst, List.mem_filter]
  constructor
  · exact List.mem_range.mpr (by have := le_maxBin hb; omega)
  · simp only [Bool.and_eq_true, decide_eq_true_eq]
    refine ⟨hb0, ?_⟩
    have := List.count_pos_iff.mpr hb
    omega

theorem cntAt_reverse (l : List (ℕ × ℕ)) (i : ℕ) (hi : i < l.length) :
    cntAt l.reverse i = cntAt l (l.length - 1 - i) := by
  simp only [cntAt, List.map_reverse]
  have h1 : i < (l.map Prod.snd).reverse.length := by simpa using hi
  have h2 : l.length - 1 - i < (l.map Prod.snd).length := by simp; omega
  rw [List.getD_eq_getElem _ _ h1, List.getD_eq_getElem _ _ h2]
  rw [List.getElem_reverse]
  congr 1
  simp

theorem prefCnt_reverse_drop (l : List (ℕ × ℕ)) (i : ℕ) (_hi : i + 1 ≤ l.length) :
    prefCnt l.reverse i = ((l.map Prod.snd).drop (l.length - (i+1))).sum := by
  simp only [prefCnt, List.map_reverse]
  rw [List.take_reverse]
  rw [List.sum_reverse]
  congr 2
  simp

theorem mergeStop_le_len_sub_one (cond : ℕ → ℕ → Bool) (bc : List (ℕ × ℕ)) :
    mergeStop cond bc ≤ bc.length - 1 := by
  rcases Nat.eq_zero_or_pos bc.length with h0 | hpos
  · have := countWhile_le (fun i => decide (i + 1 < bc.length) && cond (prefCnt bc i) (cntAt bc (i+1))) bc.length
    rw [mergeStop]
    omega
  · apply countWhile_le_of_false
    have h1 : ¬ ((bc.length - 1) + 1 < bc.length) := by omega
    simp [h1]

theorem bwd_stop_le (cond : ℕ → ℕ → Bool) (bc : List (ℕ × ℕ)) :
    mergeStop (fun c c2 => decide (2 * c < c2)) ((mergePass cond bc).1).reverse
      ≤ bc.length - 1 - mergeStop cond bc := by
  set n := bc.length with hn
  set j := mergeStop cond bc with hj
  set c' := (mergePass cond bc).1 with hc'
  have hlen : c'.length = n := mergePass_length cond bc
  have hrlen : c'.reverse.length = n := by simpa using hlen
  have hjle : j ≤ n - 1 := mergeStop_le_len_sub_one cond bc
  by_contra hcon
  push_neg at hcon
  set i0 := n - 1 - j with hi0
  have hP : (decide (i0 + 1 < c'.reverse.length) &&
      decide (2 * prefCnt c'.reverse i0 < cntAt c'.reverse (i0+1))) = true := by
    refine countWhile_true (p := fun i => decide (i + 1 < c'.reverse.length) &&
      decide (2 * prefCnt c'.reverse i < cntAt c'.reverse (i+1))) (n := c'.reverse.length) ?_
    rw [mergeStop] at hcon
    exact hcon
  rw [Bool.and_eq_true, decide_eq_true_eq, decide_eq_true_eq] at hP
  obtain ⟨ha, hb⟩ := hP
  rw [hrlen] at ha
  have hjpos : 1 ≤ j := by omega
  have hn2 : 2 ≤ n := by omega
  have hidx : c'.length - 1 - (i0 + 1) = j - 1 := by omega
  have hb1 : cntAt c'.reverse (i0 + 1) = cntAt c' (j - 1) := by
    rw [cntAt_reverse c' (i0+1) (by omega), hidx]
  have hb2 : cntAt c' (j - 1) = prefCnt bc (j - 1) := by
    rw [mergePass_counts cond bc (j-1) (by omega)]
    rw [if_pos (by omega)]
  have hdrop : c'.length - (i0 + 1) = j := by omega
  have hX : prefCnt c'.reverse i0 = ((c'.map Prod.snd).drop j).sum := by
    rw [prefCnt_reverse_drop c' i0 (by omega), hdrop]
  have hjc : j < (c'.map Prod.snd).length := by simp [hlen]; omega
  have hdc : (c'.map Prod.snd).drop j = (c'.map Prod.snd)[j] :: (c'.map Prod.snd).drop (j+1) :=
    List.drop_eq_getElem_cons hjc
  have hcjX : cntAt c' j ≤ ((c'.map Prod.snd).drop j).sum := by
    rw [hdc, List.sum_cons, cntAt, List.getD_eq_getElem _ _ hjc]
    exact Nat.le_add_right _ _
  have hcj : cntAt c' j = prefCnt bc j := by
    rw [mergePass_counts cond bc j (by omega)]
    rw [if_pos (le_refl j)]
  have hmono : prefCnt bc (j - 1) ≤ prefCnt bc j := by
    have h := prefCnt_mono bc (j - 1)
    have hj1 : j - 1 + 1 = j := by omega
    rwa [hj1] at h
  rw [hb1, hb2] at hb
  rw [hX] at hb
  rw [hcj] at hcjX
  omega

theorem consec_take_mem :
    ∀ (l : List ℕ) (t : ℕ) (p : ℕ × ℕ), p ∈ (consecPairs l).take t →
      ∃ i, i < t ∧ i + 1 < l.length ∧ l.getD i 0 = p.1 ∧ l.getD (i+1) 0 = p.2
  | [], t, p, h => by simp [consecPairs] at h
  | [a], t, p, h => by simp [consecPairs] at h
  | a :: b :: tl, t, p, h => by
    have hcp : consecPairs (a :: b :: tl) = (a, b) :: consecPairs (b :: tl) := by
      simp [consecPairs]
    rw [hcp] at h
    cases t with
    | zero => simp at h
    | succ t =>
      rw [List.take_succ_cons] at h
      rcases List.mem_cons.mp h with rfl | h2
      · exact ⟨0, by omega, by simp, by simp, by simp⟩
      · obtain ⟨i, hit, hil, h1, h2⟩ := consec_take_mem (b :: tl) t p h2
        exact ⟨i + 1, by omega, by simp at hil ⊢; omega, by simpa using h1, by simpa using h2⟩

theorem sorted_getD_strict {l : List ℕ} (hs : l.Pairwise (· < ·)) {a b : ℕ}
    (hab : a < b) (hb : b < l.length) : l.getD a 0 < l.getD b 0 := by
  have ha : a < l.length := by omega
  rw [List.getD_eq_getElem _ _ ha, List.getD_eq_getElem _ _ hb]
  exact List.pairwise_iff_getElem.mp hs a b ha hb hab

theorem sorted_getD_inj {l : List ℕ} (hs : l.Pairwise (· < ·)) {a b : ℕ}
    (ha : a < l.length) (hb : b < l.length) (h : l.getD a 0 = l.getD b 0) : a = b := by
  rcases Nat.lt_trichotomy a b with hab | hab | hab
  · have := sorted_getD_strict hs hab hb
    omega
  · exact hab
  · have := sorted_getD_strict hs hab ha
    omega

theorem lookup_some_mem {t : List (ℕ × ℕ)} {k v : ℕ} (h : t.lookup k = some v) : (k, v) ∈ t := by
  induction t with
  | nil => simp [List.lookup] at h
  | cons e rest ih =>
    rw [List.lookup] at h
    cases hbeq : k == e.1 with
    | true =>
      rw [hbeq] at h
      simp only [Option.some.injEq] at h
      obtain ⟨e1, e2⟩ := e
      have hk1 : k = e1 := by simpa using hbeq
      have hk2 : e2 = v := by simpa using h
      subst hk1; subst hk2
      exact List.mem_cons_self _ _
    | false =>
      rw [hbeq] at h
      exact List.mem_cons_of_mem _ (ih h)

theorem lookup_none_notkey {t : List (ℕ × ℕ)} {k : ℕ} (h : t.lookup k = none) :
    k ∉ t.map Prod.fst := by
  induction t with
  | nil => simp
  | cons e rest ih =>
    rw [List.lookup] at h
    cases hbeq : k == e.1 with
    | true => rw [hbeq] at h; simp at h
    | false =>
      rw [hbeq] at h
      have hk : ¬ k = e.1 := by simpa using hbeq
      simp only [List.map_cons, List.mem_cons]
      rintro (h1 | h2)
      · exact hk h1
      · exact ih h h2

theorem lookup_isSome_of_key {t : List (ℕ × ℕ)} {k : ℕ} (h : k ∈ t.map Prod.fst) :
    (t.lookup k).isSome := by
  induction t with
  | nil => simp at h
  | cons e rest ih =>
    rw [List.lookup]
    cases hbeq : k == e.1 with
    | true => simp
    | false =>
      have hk : ¬ k = e.1 := by simpa using hbeq
      simp only [List.map_cons, List.mem_cons] at h
      rcases h with h1 | h2
      · exact absurd h1 hk
      · exact ih h2

theorem lookup_eq_none_of_notkey {t : List (ℕ × ℕ)} {k : ℕ} (h : k ∉ t.map Prod.fst) :
    t.lookup k = none := by
  cases hl : t.lookup k with
  | none => rfl
  | some v =>
    exact absurd (List.mem_map.mpr ⟨(k, v), lookup_some_mem hl, rfl⟩) h

theorem foldl_dictInsert_append (l : List (ℕ × ℕ)) :
    ∀ (acc : List (ℕ × ℕ)), (∀ p ∈ l, p.1 ∉ acc.map Prod.fst) →
      l.Pairwise (fun p q => p.1 ≠ q.1) → l.foldl dictInsert acc = acc ++ l := by
  induction l with
  | nil => intro acc _ _; simp
  | cons e tl ih =>
    intro acc hacc hpw
    rw [List.foldl_cons]
    have hnot : (acc.lookup e.1).isSome = false := by
      rw [lookup_eq_none_of_notkey (hacc e (List.mem_cons_self _ _))]
      rfl
    have hins : dictInsert acc e = acc ++ [e] := by
      rw [dictInsert, hnot]
      simp
    rw [hins]
    rw [ih (acc ++ [e]) ?_ (List.Pairwise.sublist (List.sublist_cons_self _ _) hpw)]
    · simp
    · intro p hp
      simp only [List.map_append, List.mem_append, List.map_cons, List.map_nil]
      rintro (h1 | h2)
      · exact hacc p (List.mem_cons_of_mem _ hp) h1
      · have := (List.pairwise_cons.mp hpw).1 p hp
        simp at h2
        exact this h2.symm

theorem mkDict_eq_self {l : List (ℕ × ℕ)} (h : l.Pairwise (fun p q => p.1 ≠ q.1)) :
    mkDict l = l := by
  rw [mkDict, foldl_dictInsert_append l [] (by simp) h]
  simp

theorem getD_reverse (l : List ℕ) (i : ℕ) (hi : i < l.length) :
    l.reverse.getD i 0 = l.getD (l.length - 1 - i) 0 := by
  have h1 : i < l.reverse.length := by simpa using hi
  have h2 : l.length - 1 - i < l.length := by omega
  rw [List.getD_eq_getElem _ _ h1, List.getD_eq_getElem _ _ h2]
  exact List.getElem_reverse _

theorem consec_pairwise_rel {R : ℕ → ℕ → Prop} :
    ∀ {l : List ℕ}, l.Pairwise R → (consecPairs l).Pairwise (fun p q => R p.1 q.1)
  | [], _ => by simp [consecPairs]
  | [a], _ => by simp [consecPairs]
  | a :: b :: tl, h => by
    have hcp : consecPairs (a :: b :: tl) = (a, b) :: consecPairs (b :: tl) := by
      simp [consecPairs]
    rw [hcp, List.pairwise_cons]
    refine ⟨?_, consec_pairwise_rel (List.pairwise_cons.mp h).2⟩
    intro q hq
    obtain ⟨q1, q2⟩ := q
    have hq1 : q1 ∈ b :: tl := (List.of_mem_zip hq).1
    exact (List.pairwise_cons.mp h).1 q1 hq1

theorem ft_mem {bc : List (ℕ × ℕ)} {p : ℕ × ℕ} (hp : p ∈ (fwdMerge bc).2) :
    ∃ i, i < mergeStop (fun c _ => decide (c < 10)) bc ∧ i + 1 < bc.length ∧
      (bc.map Prod.fst).getD i 0 = p.1 ∧ (bc.map Prod.fst).getD (i+1) 0 = p.2 := by
  rw [fwdMerge, mergePass_snd] at hp
  obtain ⟨i, h1, h2, h3, h4⟩ := consec_take_mem _ _ _ hp
  exact ⟨i, h1, by simpa using h2, h3, h4⟩

theorem bt_mem {bc : List (ℕ × ℕ)} {p : ℕ × ℕ}
    (hp : p ∈ (bwdMerge (fwdMerge bc).1).2) :
    ∃ a, mergeStop (fun c _ => decide (c < 10)) bc + 1 ≤ a ∧ a < bc.length ∧
      (bc.map Prod.fst).getD a 0 = p.1 ∧ (bc.map Prod.fst).getD (a-1) 0 = p.2 := by
  have hmap : ((fwdMerge bc).1.reverse.map Prod.fst) = (bc.map Prod.fst).reverse := by
    rw [List.map_reverse, fwdMerge, mergePass_fst_map_fst]
  have hlen : (fwdMerge bc).1.reverse.length = bc.length := by
    simpa using mergePass_length (fun c _ => decide (c < 10)) bc
  rw [bwdMerge] at hp
  simp only at hp
  rw [bwdMergeAux, mergePass_snd] at hp
  obtain ⟨i, him, hin, h1, h2⟩ := consec_take_mem _ _ _ hp
  rw [hmap] at h1 h2
  have hin' : i + 1 < bc.length := by
    rw [hmap] at hin
    simpa using hin
  have hstop := bwd_stop_le (fun c _ => decide (c < 10)) bc
  rw [fwdMerge] at him
  have him' : i < bc.length - 1 - mergeStop (fun c _ => decide (c < 10)) bc :=
    lt_of_lt_of_le him hstop
  set n := bc.length with hn
  set j := mergeStop (fun c _ => decide (c < 10)) bc with hj
  have hrev1 : (bc.map Prod.fst).reverse.getD i 0 = (bc.map Prod.fst).getD (n - 1 - i) 0 := by
    rw [getD_reverse]
    · congr 1
      simp [hn]
    · simp [hn]; omega
  have hrev2 : (bc.map Prod.fst).reverse.getD (i+1) 0 = (bc.map Prod.fst).getD (n - 2 - i) 0 := by
    rw [getD_reverse]
    · congr 1
      simp [hn]; omega
    · simp [hn]; omega
  refine ⟨n - 1 - i, by omega, by omega, ?_, ?_⟩
  · rw [← hrev1, h1]
  · rw [← h2, hrev2]
    congr 1
    omega

theorem table_keys_pairwise (bc : List (ℕ × ℕ)) (hs : (bc.map Prod.fst).Pairwise (· < ·)) :
    ((fwdMerge bc).2 ++ (bwdMerge (fwdMerge bc).1).2).Pairwise (fun p q => p.1 ≠ q.1) := by
  rw [List.pairwise_append]
  refine ⟨?_, ?_, ?_⟩
  · have h1 : ((fwdMerge bc).2).Pairwise (fun p q : ℕ × ℕ => p.1 < q.1) := by
      rw [fwdMerge, mergePass_snd]
      exact (consec_pairwise_rel hs).sublist (List.take_sublist _ _)
    exact h1.imp (fun h => Nat.ne_of_lt h)
  · have hrev : ((bc.map Prod.fst).reverse).Pairwise (fun a b : ℕ => b < a) :=
      List.pairwise_reverse.mpr hs
    have hmap : ((fwdMerge bc).1.reverse.map Prod.fst) = (bc.map Prod.fst).reverse := by
      rw [List.map_reverse, fwdMerge, mergePass_fst_map_fst]
    have h1 : ((bwdMerge (fwdMerge bc).1).2).Pairwise (fun p q : ℕ × ℕ => q.1 < p.1) := by
      rw [bwdMerge]
      simp only
      rw [bwdMergeAux, mergePass_snd, hmap]
      exact (consec_pairwise_rel hrev).sublist (List.take_sublist _ _)
    exact h1.imp (fun h => (Nat.ne_of_lt h).symm)
  · intro p hp q hq
    obtain ⟨i, hij, hin, hp1, _⟩ := ft_mem hp
    obtain ⟨a, haj, han, hq1, _⟩ := bt_mem hq
    intro hco
    rw [← hp1, ← hq1] at hco
    have hieq : i = a := sorted_getD_inj hs (by simpa using (by omega : i < bc.length))
      (by simpa using han) hco
    omega

theorem mergeTable_eq_append (bc : List (ℕ × ℕ))
    (hs : (bc.map Prod.fst).Pairwise (· < ·)) :
    mergeTable bc = (fwdMerge bc).2 ++ (bwdMerge (fwdMerge bc).1).2 := by
  rw [mergeTable, mkDict_eq_self (table_keys_pairwise bc hs)]

theorem mergeTable_ranked (bc : List (ℕ × ℕ))
    (hs : (bc.map Prod.fst).Pairwise (· < ·)) :
    ∃ rk, RankedWith rk (mergeTable bc) := by
  set n := bc.length with hn
  set j := mergeStop (fun c _ => decide (c < 10)) bc with hj
  have hjn : j ≤ n - 1 := by
    rw [hj, hn]
    exact mergeStop_le_len_sub_one _ bc
  set spl := (bc.map Prod.fst).getD j 0 with hspl
  refine ⟨fun x => if x ≤ spl then spl + 1 - x else x, ?_⟩
  rw [mergeTable_eq_append bc hs]
  intro p hp hkey
  show (if p.2 ≤ spl then spl + 1 - p.2 else p.2) < (if p.1 ≤ spl then spl + 1 - p.1 else p.1)
  have hkey' : (∃ i', i' < j ∧ i' + 1 < n ∧ (bc.map Prod.fst).getD i' 0 = p.2) ∨
      (∃ a', j + 1 ≤ a' ∧ a' < n ∧ (bc.map Prod.fst).getD a' 0 = p.2) := by
    rw [List.map_append, List.mem_append] at hkey
    rcases hkey with hk | hk
    · obtain ⟨q, hq, hq1⟩ := List.mem_map.mp hk
      obtain ⟨i', h1, h2, h3, _⟩ := ft_mem hq
      exact Or.inl ⟨i', by omega, by omega, by rw [h3, hq1]⟩
    · obtain ⟨q, hq, hq1⟩ := List.mem_map.mp hk
      obtain ⟨a', h1, h2, h3, _⟩ := bt_mem hq
      exact Or.inr ⟨a', by omega, by omega, by rw [h3, hq1]⟩
  have hlenids : (bc.map Prod.fst).length = n := by simp [hn]
  rcases List.mem_append.mp hp with hpf | hpb
  · obtain ⟨i, hij, hin, hp1, hp2⟩ := ft_mem hpf
    rw [← hj] at hij
    rw [← hn] at hin
    have hji : j < n := by omega
    rcases hkey' with ⟨i', hi'j, hi'n, hk⟩ | ⟨a', ha'j, ha'n, hk⟩
    · have hii' : i + 1 = i' := by
        apply sorted_getD_inj hs (by omega) (by omega)
        rw [hp2, hk]
      have hlt1 : (bc.map Prod.fst).getD i 0 < (bc.map Prod.fst).getD (i+1) 0 :=
        sorted_getD_strict hs (by omega) (by omega)
      have hlt2 : (bc.map Prod.fst).getD (i+1) 0 < spl := by
        rw [hspl]
        exact sorted_getD_strict hs (by omega) (by omega)
      rw [← hp1, ← hp2]
      split_ifs <;> omega
    · have : i + 1 = a' := by
        apply sorted_getD_inj hs (by omega) (by omega)
        rw [hp2, hk]
      omega
  · obtain ⟨a, haj, han, hp1, hp2⟩ := bt_mem hpb
    rw [← hj] at haj
    rw [← hn] at han
    have hji : j < n := by omega
    rcases hkey' with ⟨i', hi'j, hi'n, hk⟩ | ⟨a', ha'j, ha'n, hk⟩
    · have : a - 1 = i' := by
        apply sorted_getD_inj hs (by omega) (by omega)
        rw [hp2, hk]
      omega
    · have haa : a - 1 = a' := by
        apply sorted_getD_inj hs (by omega) (by omega)
        rw [hp2, hk]
      have hgt1 : spl < (bc.map Prod.fst).getD (a-1) 0 := by
        rw [hspl]
        exact sorted_getD_strict hs (by omega) (by omega)
      have hgt2 : (bc.map Prod.fst).getD (a-1) 0 < (bc.map Prod.fst).getD a 0 :=
        sorted_getD_strict hs (by omega) (by omega)
      rw [← hp1, ← hp2]
      split_ifs <;> omega

theorem sum_set_add : ∀ (l : List ℕ) (i a : ℕ), i < l.length →
    (l.set i a).sum + l.getD i 0 = l.sum + a
  | [], i, a, h => by simp at h
  | x :: tl, 0, a, _ => by simp [List.set_cons_zero]; omega
  | x :: tl, i+1, a, h => by
    rw [List.set_cons_succ]
    simp only [List.sum_cons, List.getD_cons_succ]
    have := sum_set_add tl i a (by simpa using h)
    omega

theorem getD_map_of_get? {t : List (ℕ × ℕ)} {i : ℕ} {e : ℕ × ℕ}
    (h : t.get? i = some e) (f : ℕ × ℕ → ℕ) : (t.map f).getD i 0 = f e := by
  rw [List.getD_eq_getD_get?, List.get?_map, h]
  rfl

theorem set_map_fst {t : List (ℕ × ℕ)} {i : ℕ} {e : ℕ × ℕ} {w : ℕ}
    (h : t.get? i = some e) : (t.set i (e.1, w)).map Prod.fst = t.map Prod.fst := by
  induction t generalizing i with
  | nil => simp
  | cons x tl ih =>
    cases i with
    | zero =>
      simp only [List.get?_cons_zero, Option.some.injEq] at h
      subst h
      simp [List.set_cons_zero]
    | succ i =>
      simp only [List.get?_cons_succ] at h
      rw [List.set_cons_succ]
      simp only [List.map_cons]
      rw [ih h]

theorem mem_set_of_ne {t : List (ℕ × ℕ)} {i : ℕ} {v p : ℕ × ℕ}
    (hp : p ∈ t.set i v) : p ∈ t ∨ p = v :=
  List.mem_or_eq_of_mem_set hp

theorem sweepStep_get_none {st : List (ℕ × ℕ) × Bool} {i : ℕ}
    (h : st.1.get? i = none) : sweepStep st i = st := by
  unfold sweepStep
  rw [h]

theorem sweepStep_look_none {st : List (ℕ × ℕ) × Bool} {i : ℕ} {e : ℕ × ℕ}
    (hget : st.1.get? i = some e) (hlook : st.1.lookup e.2 = none) :
    sweepStep st i = st := by
  unfold sweepStep
  rw [hget]
  show (match st.1.lookup e.2 with
    | none => st
    | some w => (st.1.set i (e.1, w), false)) = st
  rw [hlook]

theorem sweepStep_update {st : List (ℕ × ℕ) × Bool} {i : ℕ} {e : ℕ × ℕ} {w : ℕ}
    (hget : st.1.get? i = some e) (hlook : st.1.lookup e.2 = some w) :
    sweepStep st i = (st.1.set i (e.1, w), false) := by
  unfold sweepStep
  rw [hget]
  show (match st.1.lookup e.2 with
    | none => st
    | some w => (st.1.set i (e.1, w), false)) = (st.1.set i (e.1, w), false)
  rw [hlook]

theorem sweepStep_inv (rk : ℕ → ℕ) (ks : List ℕ) (st : List (ℕ × ℕ) × Bool) (i : ℕ)
    (hkeys : st.1.map Prod.fst = ks) (hr : RankedWith rk st.1) :
    ((sweepStep st i).1.map Prod.fst = ks) ∧ RankedWith rk (sweepStep st i).1 ∧
      (sweepStep st i = st ∨
        ((sweepStep st i).2 = false ∧ phi rk ks (sweepStep st i).1 < phi rk ks st.1)) := by
  cases hget : st.1.get? i with
  | none =>
    rw [sweepStep_get_none hget]
    exact ⟨hkeys, hr, Or.inl rfl⟩
  | some e =>
    cases hlook : st.1.lookup e.2 with
    | none =>
      rw [sweepStep_look_none hget hlook]
      exact ⟨hkeys, hr, Or.inl rfl⟩
    | some w =>
      rw [sweepStep_update hget hlook]
      have hmem_e : e ∈ st.1 := by
        obtain ⟨hlt, hg⟩ := List.get?_eq_some.mp hget
        exact hg ▸ List.getElem_mem _
      have hmem_ew : (e.2, w) ∈ st.1 := lookup_some_mem hlook
      have hkey_e2 : e.2 ∈ st.1.map Prod.fst :=
        List.mem_map.mpr ⟨(e.2, w), hmem_ew, rfl⟩
      have hset : (st.1.set i (e.1, w)).map Prod.fst = st.1.map Prod.fst :=
        set_map_fst hget
      refine ⟨by rw [hset, hkeys], ?_, Or.inr ⟨rfl, ?_⟩⟩
      · intro p hp hpk
        rw [hset] at hpk
        rcases mem_set_of_ne hp with hpt | rfl
        · exact hr p hpt hpk
        · simp only at hpk ⊢
          have h1 : rk w < rk e.2 := hr (e.2, w) hmem_ew hpk
          have h2 : rk e.2 < rk e.1 := hr e hmem_e hkey_e2
          omega
      · have hilen : i < st.1.length := (List.get?_eq_some.mp hget).1
        have hmaplen : i < (st.1.map (fun p => if p.2 ∈ ks then rk p.2 + 1 else 0)).length := by
          simpa using hilen
        have hsum := sum_set_add (st.1.map (fun p => if p.2 ∈ ks then rk p.2 + 1 else 0)) i
          (if w ∈ ks then rk w + 1 else 0) hmaplen
        have hphi : phi rk ks (st.1.set i (e.1, w)) =
            ((st.1.map (fun p => if p.2 ∈ ks then rk p.2 + 1 else 0)).set i
              (if w ∈ ks then rk w + 1 else 0)).sum := by
          rw [phi, List.map_set]
        have hgetd : (st.1.map (fun p => if p.2 ∈ ks then rk p.2 + 1 else 0)).getD i 0 =
            (if e.2 ∈ ks then rk e.2 + 1 else 0) :=
          getD_map_of_get? hget _
        have he2ks : e.2 ∈ ks := by rw [← hkeys]; exact hkey_e2
        have hlt : (if w ∈ ks then rk w + 1 else 0) < (if e.2 ∈ ks then rk e.2 + 1 else 0) := by
          rw [if_pos he2ks]
          by_cases hwks : w ∈ ks
          · rw [if_pos hwks]
            have h1 : rk w < rk e.2 := hr (e.2, w) hmem_ew (by rw [hkeys]; exact hwks)
            omega
          · rw [if_neg hwks]
            omega
        rw [hphi, phi]
        rw [hgetd] at hsum
        omega

theorem sweepStep_false {st : List (ℕ × ℕ) × Bool} {i : ℕ} (h : st.2 = false) :
    (sweepStep st i).2 = false := by
  cases hget : st.1.get? i with
  | none => rw [sweepStep_get_none hget]; exact h
  | some e =>
    cases hlook : st.1.lookup e.2 with
    | none => rw [sweepStep_look_none hget hlook]; exact h
    | some w => rw [sweepStep_update hget hlook]

theorem sweepFold_inv (rk : ℕ → ℕ) (ks : List ℕ) (t : List (ℕ × ℕ))
    (hkeys : t.map Prod.fst = ks) (hr : RankedWith rk t) (n : ℕ) :
    (((List.range n).foldl sweepStep (t, true)).1.map Prod.fst = ks) ∧
      RankedWith rk ((List.range n).foldl sweepStep (t, true)).1 ∧
      ((List.range n).foldl sweepStep (t, true) = (t, true) ∨
        (((List.range n).foldl sweepStep (t, true)).2 = false ∧
          phi rk ks ((List.range n).foldl sweepStep (t, true)).1 < phi rk ks t)) := by
  induction n with
  | zero => exact ⟨hkeys, hr, Or.inl rfl⟩
  | succ n ih =>
    rw [List.range_succ, List.foldl_append, List.foldl_cons, List.foldl_nil]
    obtain ⟨ihk, ihr, ihd⟩ := ih
    obtain ⟨hk', hr', hd'⟩ := sweepStep_inv rk ks _ n ihk ihr
    refine ⟨hk', hr', ?_⟩
    rcases ihd with heq | ⟨hfl, hlt⟩
    · rcases hd' with heq2 | ⟨hfl2, hlt2⟩
      · rw [heq2, heq]
        exact Or.inl rfl
      · rw [heq]
        rw [heq] at hfl2 hlt2
        exact Or.inr ⟨hfl2, by simpa using hlt2⟩
    · rcases hd' with heq2 | ⟨hfl2, hlt2⟩
      · rw [heq2]
        exact Or.inr ⟨hfl, hlt⟩
      · exact Or.inr ⟨hfl2, lt_trans hlt2 hlt⟩

theorem foldl_false (n : ℕ) (st : List (ℕ × ℕ) × Bool) (h : st.2 = false) :
    ((List.range n).foldl sweepStep st).2 = false := by
  induction n with
  | zero => simpa using h
  | succ n ih =>
    rw [List.range_succ, List.foldl_append, List.foldl_cons, List.foldl_nil]
    exact sweepStep_false ih

theorem sweepFold_true (t : List (ℕ × ℕ)) (n : ℕ)
    (h : ((List.range n).foldl sweepStep (t, true)).2 = true) :
    ((List.range n).foldl sweepStep (t, true)).1 = t ∧
      (∀ i < n, ∀ e, t.get? i = some e → t.lookup e.2 = none) := by
  induction n with
  | zero => exact ⟨rfl, by omega⟩
  | succ n ih =>
    rw [List.range_succ, List.foldl_append, List.foldl_cons, List.foldl_nil] at h ⊢
    have hst : ((List.range n).foldl sweepStep (t, true)).2 = true := by
      by_contra hc
      have hfalse := @sweepStep_false ((List.range n).foldl sweepStep (t, true)) n
        (Bool.not_eq_true _ |>.mp hc)
      rw [hfalse] at h
      exact Bool.false_ne_true h
    obtain ⟨heq1, hprev⟩ := ih hst
    have hpair : (List.range n).foldl sweepStep (t, true) = (t, true) :=
      Prod.ext_iff.mpr ⟨heq1, hst⟩
    rw [hpair] at h ⊢
    cases hget : t.get? n with
    | none =>
      rw [@sweepStep_get_none (t, true) n hget]
      refine ⟨rfl, fun i hi e he => ?_⟩
      rcases Nat.lt_succ_iff_lt_or_eq.mp hi with hi' | rfl
      · exact hprev i hi' e he
      · rw [hget] at he
        exact absurd he (by simp)
    | some e =>
      cases hlook : t.lookup e.2 with
      | none =>
        rw [@sweepStep_look_none (t, true) n e hget hlook]
        refine ⟨rfl, fun i hi e' he' => ?_⟩
        rcases Nat.lt_succ_iff_lt_or_eq.mp hi with hi' | rfl
        · exact hprev i hi' e' he'
        · rw [hget] at he'
          have he2 : e = e' := by simpa using he'
          subst he2
          exact hlook
      | some w =>
        rw [@sweepStep_update (t, true) n e w hget hlook] at h
        exact absurd h (by simp)

theorem resolveLoop_resolved : ∀ (fuel : ℕ) (t t2 : List (ℕ × ℕ)),
    resolveLoop fuel t = some t2 → Resolved t2
  | 0, t, t2, h => by simp [resolveLoop] at h
  | fuel+1, t, t2, h => by
    rw [resolveLoop] at h
    rcases hsw : resolveSweep t with ⟨t3, fl⟩
    rw [hsw] at h
    cases fl with
    | false => exact resolveLoop_resolved fuel t3 t2 h
    | true =>
      simp only [Option.some.injEq] at h
      subst h
      have hsw' : (List.range t.length).foldl sweepStep (t, true) = (t3, true) := hsw
      have hsw2 : ((List.range t.length).foldl sweepStep (t, true)).2 = true := by
        rw [hsw']
      obtain ⟨heq1, hcond⟩ := sweepFold_true t t.length hsw2
      have ht3 : t3 = t := by
        rw [hsw'] at heq1
        exact heq1
      rw [ht3]
      intro p hp q hq
      obtain ⟨i, hi⟩ := List.mem_iff_get?.mp hp
      have hilt : i < t.length := by
        by_contra hc
        rw [List.get?_eq_none.mpr (by omega)] at hi
        exact Option.noConfusion hi
      have hnone := hcond i hilt p hi
      have hnk := lookup_none_notkey hnone
      intro hco
      exact hnk (List.mem_map.mpr ⟨q, hq, hco.symm⟩)

theorem resolveLoop_term (rk : ℕ → ℕ) : ∀ (N : ℕ) (t : List (ℕ × ℕ)),
    RankedWith rk t → phi rk (t.map Prod.fst) t ≤ N →
      ∃ fuel t2, resolveLoop fuel t = some t2 := by
  intro N
  induction N with
  | zero =>
    intro t hr hphi
    rcases hsw : resolveSweep t with ⟨t3, fl⟩
    cases fl with
    | true =>
      refine ⟨1, t3, ?_⟩
      rw [resolveLoop, hsw]
    | false =>
      have hsw' : (List.range t.length).foldl sweepStep (t, true) = (t3, false) := hsw
      obtain ⟨hk, hr', hd⟩ := sweepFold_inv rk (t.map Prod.fst) t rfl hr t.length
      rw [hsw'] at hd
      rcases hd with heq | ⟨_, hlt⟩
      · exact absurd (congrArg Prod.snd heq) (by simp)
      · simp only at hlt
        omega
  | succ N ih =>
    intro t hr hphi
    rcases hsw : resolveSweep t with ⟨t3, fl⟩
    cases fl with
    | true =>
      refine ⟨1, t3, ?_⟩
      rw [resolveLoop, hsw]
    | false =>
      have hsw' : (List.range t.length).foldl sweepStep (t, true) = (t3, false) := hsw
      obtain ⟨hk, hr', hd⟩ := sweepFold_inv rk (t.map Prod.fst) t rfl hr t.length
      rw [hsw'] at hk hr' hd
      rcases hd with heq | ⟨_, hlt⟩
      · exact absurd (congrArg Prod.snd heq) (by simp)
      · simp only at hk hr' hlt
        have hphi3 : phi rk (t3.map Prod.fst) t3 ≤ N := by
          rw [hk]
          omega
        obtain ⟨fuel, t2, hres⟩ := ih t3 hr' hphi3
        refine ⟨fuel + 1, t2, ?_⟩
        rw [resolveLoop, hsw]
        exact hres

theorem applySeq_cons (e : ℕ × ℕ) (l : List (ℕ × ℕ)) (b : ℕ) :
    applySeq (e :: l) b = applySeq l (if b = e.1 then e.2 else b) := by
  rw [applySeq, applySeq, List.foldl_cons]

theorem applySeq_notkey : ∀ (l : List (ℕ × ℕ)) (ks : List ℕ) (b : ℕ),
    (∀ p ∈ l, p.1 ∈ ks) → b ∉ ks → applySeq l b = b
  | [], _, b, _, _ => rfl
  | e :: tl, ks, b, hsub, hb => by
    rw [applySeq_cons]
    have hne : ¬ b = e.1 := by
      intro hco
      exact hb (hco ▸ hsub e (List.mem_cons_self _ _))
    rw [if_neg hne]
    exact applySeq_notkey tl ks b (fun p hp => hsub p (List.mem_cons_of_mem _ hp)) hb

theorem applySeq_aux : ∀ (l t : List (ℕ × ℕ)) (b : ℕ),
    (∀ p ∈ l, p ∈ t) → Resolved t →
      (applySeq l b = b ∨ applySeq l b ∉ t.map Prod.fst)
  | [], t, b, _, _ => Or.inl rfl
  | e :: tl, t, b, hsub, hres => by
    rw [applySeq_cons]
    by_cases hbe : b = e.1
    · rw [if_pos hbe]
      have he_t : e ∈ t := hsub e (List.mem_cons_self _ _)
      have hnk : e.2 ∉ t.map Prod.fst := by
        intro hco
        obtain ⟨q, hq, hq1⟩ := List.mem_map.mp hco
        exact hres e he_t q hq hq1.symm
      have : applySeq tl e.2 = e.2 :=
        applySeq_notkey tl (t.map Prod.fst) e.2
          (fun p hp => List.mem_map.mpr ⟨p, hsub p (List.mem_cons_of_mem _ hp), rfl⟩) hnk
      rw [this]
      exact Or.inr hnk
    · rw [if_neg hbe]
      exact applySeq_aux tl t b (fun p hp => hsub p (List.mem_cons_of_mem _ hp)) hres

theorem applySeq_idem {t : List (ℕ × ℕ)} (hres : Resolved t) (b : ℕ) :
    applySeq t (applySeq t b) = applySeq t b := by
  rcases applySeq_aux t t b (fun _ h => h) hres with heq | hnk
  · rw [heq]
    exact heq
  · exact applySeq_notkey t (t.map Prod.fst) _ (fun p hp => List.mem_map.mpr ⟨p, hp, rfl⟩) hnk

theorem binOfN_eq_floor {L d : ℚ} (hL : 0 < L) (hd : 0 < d) :
    (binOfN L d : ℤ) = ⌊L / d + 1/2⌋ := by
  have hq : (0:ℚ) < L / d + 1/2 := by positivity
  rw [binOfN, pyTrunc, if_pos (le_of_lt hq)]
  exact Int.toNat_of_nonneg (Int.floor_nonneg.mpr (le_of_lt hq))

/-- C2: the binning engine assigns every record the raw shell id
`floor(L/resolution + 0.5)`, discards id 0, then the forward pass (ascending)
merges each shell having fewer than 10 (accumulated) members that is not the
last shell into the next-higher-id shell, stopping at the first shell with at
least 10 members, and the backward pass (descending) merges each shell whose
member count is less than half the immediately lower shell's count (and is
not the lowest shell) into that lower shell, stopping at the first shell not
meeting the ratio condition. -/
theorem claim_C2 (L d : ℚ) (hL : 0 < L) (hd : 0 < d) (bins : List ℕ) (p : ℕ × ℕ)
    (hp : p ∈ groupBins bins) (b : ℕ) (hb0 : b ≠ 0) (hbmem : b ∈ bins)
    (bc bc2 : List (ℕ × ℕ)) :
    ((binOfN L d : ℤ) = ⌊L / d + 1/2⌋) ∧
      (p.1 ≠ 0 ∧ p.2 = bins.count p.1) ∧
      b ∈ (groupBins bins).map Prod.fst ∧
      (fwdMerge bc).2 = specForwardTable bc ∧
      (bwdMerge bc2).2 = specBackwardTable bc2 := by
  refine ⟨binOfN_eq_floor hL hd, groupBins_mem hp, groupBins_complete hb0 hbmem, ?_, ?_⟩
  · exact mergePass_snd _ bc
  · exact mergePass_snd _ bc2.reverse

/-- C2 witness at concrete inputs. -/
theorem claim_C2_witness :
    0 < (100:ℚ) ∧ 0 < (3:ℚ) ∧ ((1, 2) ∈ groupBins [1, 1, 2]) ∧ (2:ℕ) ≠ 0 ∧
      (2:ℕ) ∈ [1, 1, 2] ∧
      (((binOfN 100 3 : ℤ) = ⌊(100:ℚ) / 3 + 1/2⌋) ∧
        ((1, 2).1 ≠ 0 ∧ (1, 2).2 = List.count (1, 2).1 [1, 1, 2]) ∧
        2 ∈ (groupBins [1, 1, 2]).map Prod.fst ∧
        (fwdMerge [(1, 5), (2, 20)]).2 = specForwardTable [(1, 5), (2, 20)] ∧
        (bwdMerge [(3, 4), (4, 30)]).2 = specBackwardTable [(3, 4), (4, 30)]) :=
  ⟨by norm_num, by norm_num, by decide, by decide, by decide,
    claim_C2 100 3 (by norm_num) (by norm_num) [1, 1, 2] (1, 2) (by decide) 2
      (by decide) (by decide) [(1, 5), (2, 20)] [(3, 4), (4, 30)]⟩

/-- C6: for every record-to-shell assignment, the merge table built by the two
passes admits a rank certificate (it contains no cycle), and the chain
resolution `while` loop terminates: some finite fuel makes it return a result. -/
theorem claim_C6 (bins : List ℕ) :
    (∃ rk, RankedWith rk (mergeTable (groupBins bins))) ∧
      ∃ fuel t2, resolveLoop fuel (mergeTable (groupBins bins)) = some t2 := by
  obtain ⟨rk, hrk⟩ := mergeTable_ranked (groupBins bins) (groupBins_sorted bins)
  exact ⟨⟨rk, hrk⟩, resolveLoop_term rk _ (mergeTable (groupBins bins)) hrk le_rfl⟩

/-- C7: whenever the chain-resolution loop returns, the resulting merge table
is fully resolved (no target is a key), and rewriting a record's shell id
through the table a second time is a no-op. -/
theorem claim_C7 (bins : List ℕ) (fuel : ℕ) (t2 : List (ℕ × ℕ))
    (h : resolveLoop fuel (mergeTable (groupBins bins)) = some t2) :
    Resolved t2 ∧ ∀ b, applySeq t2 (applySeq t2 b) = applySeq t2 b := by
  have hres := resolveLoop_resolved fuel _ t2 h
  exact ⟨hres, fun b => applySeq_idem hres b⟩

/-- C7 witness at a concrete input (one undersized shell merged forward). -/
theorem claim_C7_witness :
    resolveLoop 1 (mergeTable (groupBins (List.replicate 5 1 ++ List.replicate 20 2)))
        = some [(1, 2)] ∧
      (Resolved [(1, 2)] ∧
        applySeq [(1, 2)] (applySeq [(1, 2)] 1) = applySeq [(1, 2)] 1) := by
  refine ⟨by decide, ?_, ?_⟩
  · exact (claim_C7 (List.replicate 5 1 ++ List.replicate 20 2) 1 [(1, 2)] (by decide)).1
  · exact (claim_C7 (List.replicate 5 1 ++ List.replicate 20 2) 1 [(1, 2)] (by decide)).2 1

end Hkl

namespace Fofc

theorem calc_maps_record_sqrt_neg {B : Option ℝ} {Fo Fc : ℂ} {D S FSCfull varn sig_fo d : ℝ}
    (hF : FSCfull < 0) :
    calc_maps_record true B Fo Fc D S FSCfull varn sig_fo d =
      { DELFWT := some 0, FWT := some 0,
        DELFWT_noscale := divOpt ((Fo - (D : ℂ) * Fc) * (S : ℂ)) (S + varn),
        FWT_noscale := divOpt (Fo * (S : ℂ) + (varn : ℂ) * (D : ℂ) * Fc) (S + varn),
        DELFWT_b0 := some 0, FWT_b0 := some 0 } := by
  have hps : pySqrt FSCfull = none := by rw [pySqrt, if_pos hF]
  rw [calc_maps_record, if_neg (by simp)]
  rw [hps]
  rfl

theorem calc_maps_record_small {B : Option ℝ} {Fo Fc : ℂ} {D S FSCfull varn sig_fo d : ℝ}
    (h0 : 0 ≤ FSCfull) (hsm : sig_fo * Real.sqrt FSCfull < 1/10^10) :
    calc_maps_record true B Fo Fc D S FSCfull varn sig_fo d =
      { DELFWT := some 0, FWT := some 0,
        DELFWT_noscale := divOpt ((Fo - (D : ℂ) * Fc) * (S : ℂ)) (S + varn),
        FWT_noscale := divOpt (Fo * (S : ℂ) + (varn : ℂ) * (D : ℂ) * Fc) (S + varn),
        DELFWT_b0 := some 0, FWT_b0 := some 0 } := by
  have hps : pySqrt FSCfull = some (Real.sqrt FSCfull) := by
    rw [pySqrt, if_neg (not_lt.mpr h0)]
  rw [calc_maps_record, if_neg (by simp)]
  rw [hps]
  show (if sig_fo * Real.sqrt FSCfull < 1/10^10 then _ else _) = _
  rw [if_pos hsm]

theorem calc_maps_record_ok_none {Fo Fc : ℂ} {D S FSCfull varn sig_fo d : ℝ}
    (h0 : 0 ≤ FSCfull) (hok : ¬ sig_fo * Real.sqrt FSCfull < 1/10^10) :
    calc_maps_record true none Fo Fc D S FSCfull varn sig_fo d =
      { DELFWT := (divOpt ((Fo - (D : ℂ) * Fc) * (S : ℂ)) (S + varn)).map
          (fun x => x / ((sig_fo * Real.sqrt FSCfull : ℝ) : ℂ)),
        FWT := (divOpt (Fo * (S : ℂ) + (varn : ℂ) * (D : ℂ) * Fc) (S + varn)).map
          (fun x => x / ((sig_fo * Real.sqrt FSCfull : ℝ) : ℂ)),
        DELFWT_noscale := divOpt ((Fo - (D : ℂ) * Fc) * (S : ℂ)) (S + varn),
        FWT_noscale := divOpt (Fo * (S : ℂ) + (varn : ℂ) * (D : ℂ) * Fc) (S + varn),
        DELFWT_b0 := some 0, FWT_b0 := some 0 } := by
  have hps : pySqrt FSCfull = some (Real.sqrt FSCfull) := by
    rw [pySqrt, if_neg (not_lt.mpr h0)]
  rw [calc_maps_record, if_neg (by simp)]
  rw [hps]
  show (if sig_fo * Real.sqrt FSCfull < 1/10^10 then _ else _) = _
  rw [if_neg hok]

theorem calc_maps_record_ok_some {Fo Fc : ℂ} {D S FSCfull varn sig_fo d b : ℝ}
    (h0 : 0 ≤ FSCfull) (hok : ¬ sig_fo * Real.sqrt FSCfull < 1/10^10) :
    calc_maps_record true (some b) Fo Fc D S FSCfull varn sig_fo d =
      { DELFWT := (divOpt ((Fo - (D : ℂ) * Fc) * (S : ℂ) *
            ((Real.exp (-b * (1 / d ^ 2) / 4) : ℝ) : ℂ))
            (S * Real.exp (-b * (1 / d ^ 2) / 2) + varn)).map
          (fun x => x / ((sig_fo * Real.sqrt FSCfull : ℝ) : ℂ)),
        FWT := (divOpt (Fo * ((S * Real.exp (-b * (1 / d ^ 2) / 2) : ℝ) : ℂ) +
            (varn : ℂ) * (D : ℂ) * Fc)
            (S * Real.exp (-b * (1 / d ^ 2) / 2) + varn)).map
          (fun x => x / ((sig_fo * Real.sqrt FSCfull : ℝ) : ℂ) /
            ((Real.exp (-b * (1 / d ^ 2) / 4) : ℝ) : ℂ)),
        DELFWT_noscale := divOpt ((Fo - (D : ℂ) * Fc) * (S : ℂ)) (S + varn),
        FWT_noscale := divOpt (Fo * (S : ℂ) + (varn : ℂ) * (D : ℂ) * Fc) (S + varn),
        DELFWT_b0 := (divOpt ((Fo - (D : ℂ) * Fc) * (S : ℂ)) (S + varn)).map
          (fun x => x / ((sig_fo * Real.sqrt FSCfull : ℝ) : ℂ)),
        FWT_b0 := (divOpt (Fo * (S : ℂ) + (varn : ℂ) * (D : ℂ) * Fc) (S + varn)).map
          (fun x => x / ((sig_fo * Real.sqrt FSCfull : ℝ) : ℂ)) } := by
  have hps : pySqrt FSCfull = some (Real.sqrt FSCfull) := by
    rw [pySqrt, if_neg (not_lt.mpr h0)]
  rw [calc_maps_record, if_neg (by simp)]
  rw [hps]
  show (if sig_fo * Real.sqrt FSCfull < 1/10^10 then _ else _) = _
  rw [if_neg hok]

theorem calc_maps_record_noscale (B : Option ℝ) (Fo Fc : ℂ) (D S FSCfull varn sig_fo d : ℝ) :
    (calc_maps_record true B Fo Fc D S FSCfull varn sig_fo d).DELFWT_noscale
        = divOpt ((Fo - (D : ℂ) * Fc) * (S : ℂ)) (S + varn) ∧
    (calc_maps_record true B Fo Fc D S FSCfull varn sig_fo d).FWT_noscale
        = divOpt (Fo * (S : ℂ) + (varn : ℂ) * (D : ℂ) * Fc) (S + varn) := by
  rcases lt_or_ge FSCfull 0 with hF | h0
  · rw [calc_maps_record_sqrt_neg hF]
    exact ⟨rfl, rfl⟩
  · by_cases hsm : sig_fo * Real.sqrt FSCfull < 1/10^10
    · rw [calc_maps_record_small h0 hsm]
      exact ⟨rfl, rfl⟩
    · cases B with
      | none =>
        rw [calc_maps_record_ok_none h0 hsm]
        exact ⟨rfl, rfl⟩
      | some b =>
        rw [calc_maps_record_ok_some h0 hsm]
        exact ⟨rfl, rfl⟩

/-- C1 counterexample: at the concrete shell statistics `D = 1`, `S = 0`,
`varn = 0` (an all-zero denominator `S + varn`) with `Fo = Fc = 1`, the
unnormalized coefficients are NaN (`none`), not zero: the division by
`S + varn` in fofc.py lines 172-173 is not guarded. -/
theorem claim_C1_counterexample :
    (calc_maps_record true none 1 1 1 0 1 0 1 1).DELFWT_noscale ≠ some 0 ∧
      (calc_maps_record true none 1 1 1 0 1 0 1 1).FWT_noscale ≠ some 0 ∧
      (calc_maps_record true none 1 1 1 0 1 0 1 1).DELFWT_noscale = none ∧
      (calc_maps_record true none 1 1 1 0 1 0 1 1).FWT_noscale = none := by
  obtain ⟨h1, h2⟩ := calc_maps_record_noscale none 1 1 1 0 1 0 1 1
  have hd : divOpt ((1 - ((1:ℝ) : ℂ) * 1) * ((0:ℝ) : ℂ)) ((0:ℝ) + (0:ℝ)) = none := by
    rw [divOpt, if_pos (by norm_num)]
  have hd2 : divOpt ((1:ℂ) * ((0:ℝ) : ℂ) + ((0:ℝ) : ℂ) * ((1:ℝ) : ℂ) * 1) ((0:ℝ) + (0:ℝ))
      = none := by
    rw [divOpt, if_pos (by norm_num)]
  rw [h1, h2, hd, hd2]
  exact ⟨by simp, by simp, rfl, rfl⟩

/-- C1 (amended): in half-data mode, for every shell whose statistics satisfy
`S + varn = 0`, the synthesizer performs the divisions by `S + varn`
unguarded, so the unnormalized coefficients `delfwt_raw` and `fwt_raw` are NaN
(undefined), not zero; the code has no special case for the all-zero
denominator. -/
theorem claim_C1 (B : Option ℝ) (Fo Fc : ℂ) (D S FSCfull varn sig_fo d : ℝ)
    (h : S + varn = 0) :
    (calc_maps_record true B Fo Fc D S FSCfull varn sig_fo d).DELFWT_noscale = none ∧
      (calc_maps_record true B Fo Fc D S FSCfull varn sig_fo d).FWT_noscale = none := by
  obtain ⟨h1, h2⟩ := calc_maps_record_noscale B Fo Fc D S FSCfull varn sig_fo d
  rw [h1, h2, divOpt, divOpt, if_pos h, if_pos h]
  exact ⟨rfl, rfl⟩

/-- C1 witness. -/
theorem claim_C1_witness :
    (0:ℝ) + 0 = 0 ∧
      ((calc_maps_record true none 1 1 1 0 0 0 0 1).DELFWT_noscale = none ∧
        (calc_maps_record true none 1 1 1 0 0 0 0 1).FWT_noscale = none) :=
  ⟨by norm_num, claim_C1 none 1 1 1 0 0 0 0 1 (by norm_num)⟩

/-- C3: in no-half-data mode the only output column is `DELFWT` and it holds
`Fo - D·Fc` for every record; in half-data mode the unnormalized outputs are
`delfwt_raw = (Fo - D·Fc)·S/(S + varn)` and
`fwt_raw = (Fo·S + varn·D·Fc)/(S + varn)` (whenever the denominator is
nonzero, so that the quotient is a number). -/
theorem claim_C3 (B B2 : Option ℝ) (Fo Fc Fo2 Fc2 : ℂ)
    (D S FSCfull varn sig_fo d D2 S2 FSC2 varn2 sig2 d2 : ℝ) (h : S + varn ≠ 0) :
    calc_maps_labs false B2 = ["DELFWT"] ∧
      (calc_maps_record false B2 Fo2 Fc2 D2 S2 FSC2 varn2 sig2 d2).DELFWT
          = some (Fo2 - (D2 : ℂ) * Fc2) ∧
      (calc_maps_record true B Fo Fc D S FSCfull varn sig_fo d).DELFWT_noscale
          = some ((Fo - (D : ℂ) * Fc) * (S : ℂ) / ((S : ℂ) + (varn : ℂ))) ∧
      (calc_maps_record true B Fo Fc D S FSCfull varn sig_fo d).FWT_noscale
          = some ((Fo * (S : ℂ) + (varn : ℂ) * (D : ℂ) * Fc) / ((S : ℂ) + (varn : ℂ))) := by
  obtain ⟨h1, h2⟩ := calc_maps_record_noscale B Fo Fc D S FSCfull varn sig_fo d
  refine ⟨rfl, by rw [calc_maps_record, if_pos rfl], ?_, ?_⟩
  · rw [h1, divOpt, if_neg h]
    congr 1
    push_cast
    ring
  · rw [h2, divOpt, if_neg h]
    congr 1
    push_cast
    ring

/-- C3 witness. -/
theorem claim_C3_witness :
    (1:ℝ) + 0 ≠ 0 ∧
      (calc_maps_labs false none = ["DELFWT"] ∧
        (calc_maps_record false none 2 1 1 0 0 0 0 1).DELFWT
            = some (2 - ((1:ℝ) : ℂ) * 1) ∧
        (calc_maps_record true none 2 1 1 1 1 0 1 1).DELFWT_noscale
            = some ((2 - ((1:ℝ) : ℂ) * 1) * ((1:ℝ) : ℂ) / (((1:ℝ) : ℂ) + ((0:ℝ) : ℂ))) ∧
        (calc_maps_record true none 2 1 1 1 1 0 1 1).FWT_noscale
            = some ((2 * ((1:ℝ) : ℂ) + ((0:ℝ) : ℂ) * ((1:ℝ) : ℂ) * 1) /
                (((1:ℝ) : ℂ) + ((0:ℝ) : ℂ)))) :=
  ⟨by norm_num, claim_C3 none none 2 1 2 1 1 1 1 0 1 1 1 0 0 0 0 1 (by norm_num)⟩

/-- C4: for every shell, the scale factor equals
`D = sum Re(Fo·conj(Fc)) / sum |Fc|^2`, the signal variance (half-data mode)
equals `S = max(0, mean(|Fo - D·Fc|^2) - noise_variance)`, and `S` is never
negative. -/
theorem claim_C4 (Fo Fc : List ℂ) (varn : ℝ) (hasHalf : Bool) :
    (calc_D_and_S_bin Fo Fc varn true).1 =
        (((Fo.zip Fc).map (fun p => (p.1 * (starRingEnd ℂ) p.2).re)).sum) /
          ((Fc.map (fun z => Complex.normSq z)).sum) ∧
      (calc_D_and_S_bin Fo Fc varn true).2 =
        max 0 ((((Fo.zip Fc).map (fun p =>
            Complex.normSq (p.1 - ((calc_D_and_S_bin Fo Fc varn true).1 : ℂ) * p.2))).sum) /
          ((Fo.zip Fc).length : ℝ) - varn) ∧
      0 ≤ (calc_D_and_S_bin Fo Fc varn hasHalf).2 := by
  refine ⟨?_, ?_, ?_⟩
  · rw [calc_D_and_S_bin]
    simp only [calc_D_bin, Complex.sq_abs]
  · rw [calc_D_and_S_bin]
    simp only [calc_S_bin, if_pos rfl, Complex.sq_abs]
    rfl
  · rw [calc_D_and_S_bin]
    simp only [calc_S_bin]
    cases hasHalf with
    | false => simp
    | true => simp [le_max_left]

/-- C5: for every shell with at least 3 members, the noise-variance estimator
sets `var_noise = var(half1 - half2)/4` and `FSCfull = 2r/(1 + r)` with `r`
the half-map correlation; every shell with fewer than 3 members is skipped and
both statistics remain at their default 0. -/
theorem claim_C5 (s1 s2 t1 t2 : List ℂ) (hlt : t1.length < 3) (hge : 3 ≤ s1.length) :
    calc_noise_var_bin t1 t2 = (0, 0) ∧
      (calc_noise_var_bin s1 s2).1 = cvar ((s1.zip s2).map (fun p => p.1 - p.2)) / 4 ∧
      (calc_noise_var_bin s1 s2).2 = 2 * corr10 s1 s2 / (1 + corr10 s1 s2) := by
  refine ⟨by rw [calc_noise_var_bin, if_pos hlt], ?_, ?_⟩
  · rw [calc_noise_var_bin, if_neg (not_lt.mpr hge)]
  · rw [calc_noise_var_bin, if_neg (not_lt.mpr hge)]

/-- C5 witness. -/
theorem claim_C5_witness :
    ([] : List ℂ).length < 3 ∧ 3 ≤ ([1, 2, 3] : List ℂ).length ∧
      (calc_noise_var_bin [] [] = (0, 0) ∧
        (calc_noise_var_bin [1, 2, 3] [1, 2, 3]).1 =
          cvar ((([1, 2, 3] : List ℂ).zip [1, 2, 3]).map (fun p => p.1 - p.2)) / 4 ∧
        (calc_noise_var_bin [1, 2, 3] [1, 2, 3]).2 =
          2 * corr10 [1, 2, 3] [1, 2, 3] / (1 + corr10 [1, 2, 3] [1, 2, 3])) :=
  ⟨by simp, by simp, claim_C5 [1, 2, 3] [1, 2, 3] [] [] (by simp) (by simp)⟩

/-- C8: in half-data mode, a shell whose normalization factor
`n = std(Fo)·sqrt(FSCfull)` is NaN (negative `FSCfull`) or below the `1e-10`
threshold keeps its normalized outputs at zero while the unnormalized outputs
are still recorded; otherwise the normalized outputs equal `delfwt_raw/n` and
`fwt_raw/n`.  The pipeline handles every shell through these total branches
(no exception), and `calc_maps` uses `std` over the shell's observed
amplitudes as `sig_fo`. -/
theorem claim_C8 (B1 : Option ℝ) (Fo1 Fc1 Fo2 Fc2 Fo3 Fc3 : ℂ)
    (D1 S1 FSC1 varn1 sig1 d1 D2 S2 FSC2 varn2 sig2 d2 D3 S3 FSC3 varn3 sig3 d3 : ℝ)
    (hasHalf : Bool) (B : Option ℝ) (Fos Fcs : List ℂ) (ds : List ℝ) (Dv Sv Fv vv : ℝ)
    (hneg : FSC1 < 0)
    (h2a : 0 ≤ FSC2) (h2b : sig2 * Real.sqrt FSC2 < 1/10^10)
    (h3a : 0 ≤ FSC3) (h3b : ¬ sig3 * Real.sqrt FSC3 < 1/10^10) (h3c : S3 + varn3 ≠ 0) :
    ((calc_maps_record true B1 Fo1 Fc1 D1 S1 FSC1 varn1 sig1 d1).DELFWT = some 0 ∧
      (calc_maps_record true B1 Fo1 Fc1 D1 S1 FSC1 varn1 sig1 d1).FWT = some 0 ∧
      (calc_maps_record true B1 Fo1 Fc1 D1 S1 FSC1 varn1 sig1 d1).DELFWT_noscale
        = divOpt ((Fo1 - (D1 : ℂ) * Fc1) * (S1 : ℂ)) (S1 + varn1) ∧
      (calc_maps_record true B1 Fo1 Fc1 D1 S1 FSC1 varn1 sig1 d1).FWT_noscale
        = divOpt (Fo1 * (S1 : ℂ) + (varn1 : ℂ) * (D1 : ℂ) * Fc1) (S1 + varn1)) ∧
    ((calc_maps_record true B1 Fo2 Fc2 D2 S2 FSC2 varn2 sig2 d2).DELFWT = some 0 ∧
      (calc_maps_record true B1 Fo2 Fc2 D2 S2 FSC2 varn2 sig2 d2).FWT = some 0 ∧
      (calc_maps_record true B1 Fo2 Fc2 D2 S2 FSC2 varn2 sig2 d2).DELFWT_noscale
        = divOpt ((Fo2 - (D2 : ℂ) * Fc2) * (S2 : ℂ)) (S2 + varn2) ∧
      (calc_maps_record true B1 Fo2 Fc2 D2 S2 FSC2 varn2 sig2 d2).FWT_noscale
        = divOpt (Fo2 * (S2 : ℂ) + (varn2 : ℂ) * (D2 : ℂ) * Fc2) (S2 + varn2)) ∧
    ((calc_maps_record true none Fo3 Fc3 D3 S3 FSC3 varn3 sig3 d3).DELFWT
        = some ((Fo3 - (D3 : ℂ) * Fc3) * (S3 : ℂ) / ((S3 + varn3 : ℝ) : ℂ) /
            ((sig3 * Real.sqrt FSC3 : ℝ) : ℂ)) ∧
      (calc_maps_record true none Fo3 Fc3 D3 S3 FSC3 varn3 sig3 d3).FWT
        = some ((Fo3 * (S3 : ℂ) + (varn3 : ℂ) * (D3 : ℂ) * Fc3) / ((S3 + varn3 : ℝ) : ℂ) /
            ((sig3 * Real.sqrt FSC3 : ℝ) : ℂ))) ∧
    calc_maps_bin hasHalf B Fos Fcs ds Dv Sv Fv vv =
      ((Fos.zip Fcs).zip ds).map
        (fun p => calc_maps_record hasHalf B p.1.1 p.1.2 Dv Sv Fv vv (cstd Fos) p.2) := by
  refine ⟨?_, ?_, ?_, rfl⟩
  · rw [calc_maps_record_sqrt_neg hneg]
    exact ⟨rfl, rfl, rfl, rfl⟩
  · rw [calc_maps_record_small h2a h2b]
    exact ⟨rfl, rfl, rfl, rfl⟩
  · rw [calc_maps_record_ok_none h3a h3b]
    rw [divOpt, divOpt, if_neg h3c, if_neg h3c]
    exact ⟨rfl, rfl⟩

/-- C8 witness. -/
theorem claim_C8_witness :
    (-1 : ℝ) < 0 ∧ (0:ℝ) ≤ 0 ∧ (1:ℝ) * Real.sqrt 0 < 1/10^10 ∧ (0:ℝ) ≤ 1 ∧
      ¬ (1:ℝ) * Real.sqrt 1 < 1/10^10 ∧ (1:ℝ) + 0 ≠ 0 ∧
      (calc_maps_record true none 1 1 1 1 1 0 1 1).DELFWT
        = some ((1 - ((1:ℝ) : ℂ) * 1) * ((1:ℝ) : ℂ) / (((1 + 0 : ℝ)) : ℂ) /
            (((1 : ℝ) * Real.sqrt 1 : ℝ) : ℂ)) := by
  have h1 : (1:ℝ) * Real.sqrt 0 < 1/10^10 := by
    rw [Real.sqrt_zero]
    norm_num
  have h2 : ¬ (1:ℝ) * Real.sqrt 1 < 1/10^10 := by
    rw [Real.sqrt_one]
    norm_num
  refine ⟨by norm_num, by norm_num, h1, by norm_num, h2, by norm_num, ?_⟩
  exact (claim_C8 none 1 1 1 1 1 1
    1 1 (-1) 0 1 1
    1 1 0 0 1 1
    1 1 1 0 1 1
    true none [] [] [] 0 0 0 0
    (by norm_num) (by norm_num) h1 (by norm_num) h2 (by norm_num)).2.2.1.1

/-- C9: with a temperature-factor adjustment `B` supplied, for every record the
synthesizer computes `s2 = 1/d^2`, `k = exp(-B·s2/4)`, `k2 = exp(-B·s2/2)`,
`FSCl = k2·FSCfull/(1 + (k2 - 1)·FSCfull)`, `Sl = S·k2`, and writes the
second coefficient pair `delfwt_b = (Fo - D·Fc)·S·k/((Sl + varn)·n)` and
`fwt_b = (Fo·Sl + varn·D·Fc)/((Sl + varn)·n·k)` into `DELFWT`/`FWT`, while the
unscaled normalized pair is retained in the separate `DELFWT_b0`/`FWT_b0`
columns and all six output labels are created. -/
theorem claim_C9 (b b2 : ℝ) (Fo Fc : ℂ) (D S FSCfull varn sig_fo d : ℝ)
    (h0 : 0 ≤ FSCfull) (hok : ¬ sig_fo * Real.sqrt FSCfull < 1/10^10)
    (hSl : S * Real.exp (-b * (1 / d ^ 2) / 2) + varn ≠ 0) (hS : S + varn ≠ 0) :
    (calc_maps_record true (some b) Fo Fc D S FSCfull varn sig_fo d).DELFWT
        = some ((Fo - (D : ℂ) * Fc) * (S : ℂ) * ((Real.exp (-b * (1 / d ^ 2) / 4) : ℝ) : ℂ) /
            (((S * Real.exp (-b * (1 / d ^ 2) / 2) + varn : ℝ) : ℂ) *
              ((sig_fo * Real.sqrt FSCfull : ℝ) : ℂ))) ∧
      (calc_maps_record true (some b) Fo Fc D S FSCfull varn sig_fo d).FWT
        = some ((Fo * ((S * Real.exp (-b * (1 / d ^ 2) / 2) : ℝ) : ℂ) +
              (varn : ℂ) * (D : ℂ) * Fc) /
            (((S * Real.exp (-b * (1 / d ^ 2) / 2) + varn : ℝ) : ℂ) *
              ((sig_fo * Real.sqrt FSCfull : ℝ) : ℂ) *
              ((Real.exp (-b * (1 / d ^ 2) / 4) : ℝ) : ℂ))) ∧
      (calc_maps_record true (some b) Fo Fc D S FSCfull varn sig_fo d).DELFWT_b0
        = some ((Fo - (D : ℂ) * Fc) * (S : ℂ) / ((S + varn : ℝ) : ℂ) /
            ((sig_fo * Real.sqrt FSCfull : ℝ) : ℂ)) ∧
      (calc_maps_record true (some b) Fo Fc D S FSCfull varn sig_fo d).FWT_b0
        = some ((Fo * (S : ℂ) + (varn : ℂ) * (D : ℂ) * Fc) / ((S + varn : ℝ) : ℂ) /
            ((sig_fo * Real.sqrt FSCfull : ℝ) : ℂ)) ∧
      fsc_l_of b2 d FSCfull =
        Real.exp (-b2 * (1 / d ^ 2) / 2) * FSCfull /
          (1 + (Real.exp (-b2 * (1 / d ^ 2) / 2) - 1) * FSCfull) ∧
      calc_maps_labs true (some b) =
        ["DELFWT", "FWT", "DELFWT_noscale", "FWT_noscale", "DELFWT_b0", "FWT_b0"] := by
  rw [calc_maps_record_ok_some h0 hok]
  rw [divOpt, divOpt, divOpt, divOpt, if_neg hSl, if_neg hSl, if_neg hS, if_neg hS]
  refine ⟨?_, ?_, rfl, rfl, rfl, rfl⟩
  · simp only [Option.map_some']
    congr 1
    rw [div_div]
  · simp only [Option.map_some']
    congr 1
    rw [div_div, div_div]
    ring

/-- C9 witness. -/
theorem claim_C9_witness :
    (0:ℝ) ≤ 1 ∧ ¬ (1:ℝ) * Real.sqrt 1 < 1/10^10 ∧
      (1:ℝ) * Real.exp (-0 * (1 / (1:ℝ) ^ 2) / 2) + 0 ≠ 0 ∧ (1:ℝ) + 0 ≠ 0 ∧
      fsc_l_of 0 1 1 =
        Real.exp (-0 * (1 / (1:ℝ) ^ 2) / 2) * 1 /
          (1 + (Real.exp (-0 * (1 / (1:ℝ) ^ 2) / 2) - 1) * 1) := by
  have h2 : ¬ (1:ℝ) * Real.sqrt 1 < 1/10^10 := by
    rw [Real.sqrt_one]
    norm_num
  have h3 : (1:ℝ) * Real.exp (-0 * (1 / (1:ℝ) ^ 2) / 2) + 0 ≠ 0 := by
    have : (-0 : ℝ) * (1 / (1:ℝ) ^ 2) / 2 = 0 := by norm_num
    rw [this, Real.exp_zero]
    norm_num
  refine ⟨by norm_num, h2, h3, by norm_num, ?_⟩
  exact (claim_C9 0 0 1 1 1 1 1 0 1 1 (by norm_num) h2 h3 (by norm_num)).2.2.2.2.1

/-- C10: with two half maps, the observed amplitude `FP` is for every record
the arithmetic mean `(half1 + half2)/2` of the two half-map values; with a
single map it is that map's value; and the pipeline feeds exactly this `FP`
into the scale regression, the signal variance estimate and the coefficient
synthesis. -/
theorem claim_C10 (m1 m2 m h1 h2 Fcs : List ℂ) (ds : List ℝ) (B : Option ℝ) :
    mask_and_fft_FP [m1, m2] = some ((m1.zip m2).map (fun p => (p.1 + p.2) / 2)) ∧
      mask_and_fft_FP [m] = some m ∧
      fofc_pipeline_bin h1 h2 Fcs ds B =
        calc_maps_bin true B ((h1.zip h2).map (fun p => (p.1 + p.2) / 2)) Fcs ds
          (calc_D_and_S_bin ((h1.zip h2).map (fun p => (p.1 + p.2) / 2)) Fcs
            (calc_noise_var_bin h1 h2).1 true).1
          (calc_D_and_S_bin ((h1.zip h2).map (fun p => (p.1 + p.2) / 2)) Fcs
            (calc_noise_var_bin h1 h2).1 true).2
          (calc_noise_var_bin h1 h2).2 (calc_noise_var_bin h1 h2).1 := by
  have hmask : mask_and_fft_FP [m1, m2]
      = some ((m1.zip m2).map (fun p => (p.1 + p.2) / 2)) := by
    rw [mask_and_fft_FP, if_pos (by simp)]
    simp
  have hmask2 : mask_and_fft_FP [h1, h2]
      = some ((h1.zip h2).map (fun p => (p.1 + p.2) / 2)) := by
    rw [mask_and_fft_FP, if_pos (by simp)]
    simp
  refine ⟨hmask, ?_, ?_⟩
  · rw [mask_and_fft_FP, if_neg (by simp), if_pos (by simp)]
    simp
  · rw [fofc_pipeline_bin, hmask2]
    rfl

end Fofc

end Servalcat
